import Mathlib

/-!
Verification of the tempo-chain builder of Video-Speed-Controller
(`src/VSC.py`, function `atempo_chain`).

The Python function is:

```
def atempo_chain(sf):
    tempos = []
    while sf > 2.0:
        tempos.append("atempo=2.0")
        sf /= 2.0
    while sf < 0.5:
        tempos.append("atempo=0.5")
        sf *= 2.0
    tempos.append(f"atempo={sf}")
    return ",".join(tempos)
```

We embed it over ℚ.  Every arithmetic operation the loops perform is an
exact multiplication or division by 2, so rational arithmetic reproduces
the IEEE-754 run bit for bit on these operations; the final stage is the
accumulator itself.  Each `while` loop becomes a well-founded recursion
returning the list of stages it emits together with the final value of
the accumulator `sf`.  For `sf ≤ 0` the second source loop diverges
(the spec declares such inputs invalid and never passed), so its guard
carries the positivity that makes the recursion well founded; on the
inputs the spec admits (`s > 0`) the embedding agrees with the source.
-/

/-- Termination measure for the halving loop: each pass shrinks the
ceiling of the accumulator. -/
lemma ceil_half_lt (sf : ℚ) (h : 2 < sf) : (⌈sf / 2⌉).toNat < (⌈sf⌉).toNat := by
  have h3 : (3 : ℤ) ≤ ⌈sf⌉ := by
    have h2 : (2 : ℤ) < ⌈sf⌉ := by
      rw [Int.lt_ceil]; exact_mod_cast h
    omega
  have hle : sf / 2 ≤ sf - 1 := by linarith
  have hc : ⌈sf / 2⌉ ≤ ⌈sf⌉ - 1 := by
    have := Int.ceil_mono hle
    rwa [show sf - 1 = sf - ((1 : ℤ) : ℚ) by push_cast; ring,
      Int.ceil_sub_int] at this
  omega

/-- Termination measure for the doubling loop: each pass shrinks the
ceiling of the reciprocal of the accumulator. -/
lemma ceil_inv_double_lt (sf : ℚ) (h : 0 < sf ∧ sf < 1/2) :
    (⌈1 / (sf * 2)⌉).toNat < (⌈1 / sf⌉).toNat := by
  obtain ⟨hpos, hlt⟩ := h
  have ht : 2 < 1 / sf := by
    rw [lt_div_iff₀ hpos]; linarith
  have hrw : 1 / (sf * 2) = (1 / sf) / 2 := by
    field_simp
  rw [hrw]
  exact ceil_half_lt (1 / sf) ht

/-- First loop of `atempo_chain`: `while sf > 2.0: emit 2.0; sf /= 2.0`.
Returns the emitted stage multipliers and the final accumulator. -/
def atempoHalve (sf : ℚ) : List ℚ × ℚ :=
  if h : 2 < sf then
    ((2 : ℚ) :: (atempoHalve (sf / 2)).1, (atempoHalve (sf / 2)).2)
  else
    ([], sf)
termination_by (⌈sf⌉).toNat
decreasing_by
  all_goals exact ceil_half_lt sf h

/-- Second loop of `atempo_chain`: `while sf < 0.5: emit 0.5; sf *= 2.0`.
The guard carries `0 < sf`: for `sf ≤ 0` the source loop never exits
(the spec rules such inputs out), so the embedding returns `([], sf)`
there. -/
def atempoDouble (sf : ℚ) : List ℚ × ℚ :=
  if h : 0 < sf ∧ sf < 1/2 then
    ((1/2 : ℚ) :: (atempoDouble (sf * 2)).1, (atempoDouble (sf * 2)).2)
  else
    ([], sf)
termination_by (⌈1 / sf⌉).toNat
decreasing_by
  all_goals exact ceil_inv_double_lt sf h

/-- The Tempo Chain of `atempo_chain`: the ordered list of stage
multipliers emitted by the two loops followed by the final accumulator
(source line `tempos.append(f"atempo={sf}")`). -/
def atempoStages (sf : ℚ) : List ℚ :=
  (atempoHalve sf).1 ++ (atempoDouble (atempoHalve sf).2).1
    ++ [(atempoDouble (atempoHalve sf).2).2]

lemma atempoHalve_of_gt (sf : ℚ) (h : 2 < sf) :
    atempoHalve sf = ((2 : ℚ) :: (atempoHalve (sf / 2)).1, (atempoHalve (sf / 2)).2) := by
  rw [atempoHalve]
  simp [h]

lemma atempoHalve_of_le (sf : ℚ) (h : sf ≤ 2) : atempoHalve sf = ([], sf) := by
  rw [atempoHalve]
  simp [not_lt.mpr h]

lemma atempoDouble_of_lt (sf : ℚ) (h0 : 0 < sf) (h : sf < 1/2) :
    atempoDouble sf = ((1/2 : ℚ) :: (atempoDouble (sf * 2)).1, (atempoDouble (sf * 2)).2) := by
  rw [atempoDouble]
  rw [dif_pos ⟨h0, h⟩]

lemma atempoDouble_of_not (sf : ℚ) (h : ¬(0 < sf ∧ sf < 1/2)) :
    atempoDouble sf = ([], sf) := by
  rw [atempoDouble]
  rw [dif_neg h]

lemma atempoDouble_of_ge (sf : ℚ) (h : 1/2 ≤ sf) : atempoDouble sf = ([], sf) :=
  atempoDouble_of_not sf (by rintro ⟨-, hlt⟩; linarith)

/-! ### Invariants of the halving loop -/

/-- The halving loop preserves the running product: the product of the
emitted stages times the final accumulator is the initial accumulator. -/
lemma atempoHalve_prod (sf : ℚ) :
    ((atempoHalve sf).1).prod * (atempoHalve sf).2 = sf := by
  induction sf using atempoHalve.induct with
  | case1 x h ih =>
    rw [atempoHalve_of_gt x h]
    simp only [List.prod_cons]
    rw [mul_assoc, ih]
    ring
  | case2 x h =>
    rw [atempoHalve_of_le x (not_lt.mp h)]
    simp

/-- Every stage emitted by the halving loop is the literal 2. -/
lemma atempoHalve_mem (sf : ℚ) : ∀ x ∈ (atempoHalve sf).1, x = 2 := by
  induction sf using atempoHalve.induct with
  | case1 x h ih =>
    rw [atempoHalve_of_gt x h]
    intro y hy
    rcases List.mem_cons.mp hy with hy | hy
    · exact hy
    · exact ih y hy
  | case2 x h =>
    rw [atempoHalve_of_le x (not_lt.mp h)]
    simp

/-- The halving loop exits with accumulator at most 2. -/
lemma atempoHalve_snd_le (sf : ℚ) : (atempoHalve sf).2 ≤ 2 := by
  induction sf using atempoHalve.induct with
  | case1 x h ih =>
    rw [atempoHalve_of_gt x h]
    exact ih
  | case2 x h =>
    rw [atempoHalve_of_le x (not_lt.mp h)]
    exact not_lt.mp h

/-- When the halving loop runs at all, it exits with accumulator
strictly above 1. -/
lemma atempoHalve_snd_gt_one (sf : ℚ) (hsf : 2 < sf) :
    1 < (atempoHalve sf).2 := by
  induction sf using atempoHalve.induct with
  | case1 x h ih =>
    rw [atempoHalve_of_gt x h]
    by_cases h2 : 2 < x / 2
    · exact ih h2
    · rw [atempoHalve_of_le _ (not_lt.mp h2)]
      dsimp only
      linarith
  | case2 x h =>
    exact absurd hsf h

/-- The halving loop keeps a positive accumulator positive. -/
lemma atempoHalve_snd_pos (sf : ℚ) (hsf : 0 < sf) : 0 < (atempoHalve sf).2 := by
  by_cases h : 2 < sf
  · linarith [atempoHalve_snd_gt_one sf h]
  · rw [atempoHalve_of_le sf (not_lt.mp h)]
    exact hsf

/-- Upper bound tying the input to the halving-loop trip count:
`sf ≤ 2 ^ (k + 1)` where `k` is the number of emitted stages. -/
lemma atempoHalve_le_pow (sf : ℚ) :
    sf ≤ 2 ^ ((atempoHalve sf).1.length + 1) := by
  induction sf using atempoHalve.induct with
  | case1 x h ih =>
    rw [atempoHalve_of_gt x h]
    simp only [List.length_cons]
    rw [pow_succ]
    linarith
  | case2 x h =>
    rw [atempoHalve_of_le x (not_lt.mp h)]
    simp only [List.length_nil, zero_add, pow_one]
    exact not_lt.mp h

/-- Lower bound: the halving loop runs no longer than needed,
`2 ^ k < sf` for `k` emitted stages when it runs at all. -/
lemma atempoHalve_pow_lt (sf : ℚ) (hsf : 2 < sf) :
    (2 : ℚ) ^ (atempoHalve sf).1.length < sf := by
  induction sf using atempoHalve.induct with
  | case1 x h ih =>
    rw [atempoHalve_of_gt x h]
    simp only [List.length_cons]
    by_cases h2 : 2 < x / 2
    · have := ih h2
      rw [pow_succ]
      linarith
    · rw [atempoHalve_of_le _ (not_lt.mp h2)]
      simpa using h
  | case2 x h =>
    exact absurd hsf h

/-! ### Invariants of the doubling loop -/

/-- The doubling loop preserves the running product. -/
lemma atempoDouble_prod (sf : ℚ) :
    ((atempoDouble sf).1).prod * (atempoDouble sf).2 = sf := by
  induction sf using atempoDouble.induct with
  | case1 x h ih =>
    rw [atempoDouble_of_lt x h.1 h.2]
    simp only [List.prod_cons]
    rw [mul_assoc, ih]
    ring
  | case2 x h =>
    rw [atempoDouble_of_not x h]
    simp

/-- Every stage emitted by the doubling loop is the literal 1/2. -/
lemma atempoDouble_mem (sf : ℚ) : ∀ x ∈ (atempoDouble sf).1, x = 1/2 := by
  induction sf using atempoDouble.induct with
  | case1 x h ih =>
    rw [atempoDouble_of_lt x h.1 h.2]
    intro y hy
    rcases List.mem_cons.mp hy with hy | hy
    · exact hy
    · exact ih y hy
  | case2 x h =>
    rw [atempoDouble_of_not x h]
    simp

/-- On positive input the doubling loop exits with accumulator at
least 1/2. -/
lemma atempoDouble_snd_ge (sf : ℚ) (hsf : 0 < sf) :
    1/2 ≤ (atempoDouble sf).2 := by
  induction sf using atempoDouble.induct with
  | case1 x h ih =>
    rw [atempoDouble_of_lt x h.1 h.2]
    exact ih (by linarith [h.1])
  | case2 x h =>
    rw [atempoDouble_of_not x h]
    dsimp only
    rcases not_and_or.mp h with h0 | hlt
    · exact absurd hsf h0
    · linarith [not_lt.mp hlt]

/-- An accumulator below 1 stays below 1 through the doubling loop. -/
lemma atempoDouble_snd_lt_one (sf : ℚ) (hsf : sf < 1) :
    (atempoDouble sf).2 < 1 := by
  induction sf using atempoDouble.induct with
  | case1 x h ih =>
    rw [atempoDouble_of_lt x h.1 h.2]
    exact ih (by linarith [h.2])
  | case2 x h =>
    rw [atempoDouble_of_not x h]
    exact hsf

/-- Upper bound tying the input to the doubling-loop trip count:
`1 ≤ sf * 2 ^ (k + 1)` where `k` is the number of emitted stages. -/
lemma atempoDouble_pow_ge (sf : ℚ) (hsf : 0 < sf) :
    1 ≤ sf * 2 ^ ((atempoDouble sf).1.length + 1) := by
  induction sf using atempoDouble.induct with
  | case1 x h ih =>
    rw [atempoDouble_of_lt x h.1 h.2]
    simp only [List.length_cons]
    have h2 := ih (by linarith [h.1])
    calc (1 : ℚ) ≤ x * 2 * 2 ^ ((atempoDouble (x * 2)).1.length + 1) := h2
    _ = x * 2 ^ ((atempoDouble (x * 2)).1.length + 1 + 1) := by ring
  | case2 x h =>
    rw [atempoDouble_of_not x h]
    simp only [List.length_nil, zero_add, pow_one]
    rcases not_and_or.mp h with h0 | hlt
    · exact absurd hsf h0
    · linarith [not_lt.mp hlt]

/-- Lower bound: the doubling loop runs no longer than needed,
`sf * 2 ^ k < 1` for `k` emitted stages when it runs at all. -/
lemma atempoDouble_pow_lt (sf : ℚ) (h0 : 0 < sf) (hlt : sf < 1/2) :
    sf * 2 ^ (atempoDouble sf).1.length < 1 := by
  induction sf using atempoDouble.induct with
  | case1 x h ih =>
    rw [atempoDouble_of_lt x h.1 h.2]
    simp only [List.length_cons]
    by_cases hB : x * 2 < 1/2
    · have h2 := ih (by linarith [h.1]) hB
      calc x * 2 ^ ((atempoDouble (x * 2)).1.length + 1)
          = x * 2 * 2 ^ (atempoDouble (x * 2)).1.length := by ring
      _ < 1 := h2
    · rw [atempoDouble_of_not (x * 2) (by rintro ⟨-, hc⟩; exact hB hc)]
      simp only [List.length_nil, zero_add, pow_one]
      linarith [h.2]
  | case2 x h =>
    exact absurd ⟨h0, hlt⟩ h

/-! ### The chain as a whole -/

/-- Inside the band neither loop runs: the chain is the single stage `[s]`. -/
lemma atempoStages_of_band (s : ℚ) (h1 : 1/2 ≤ s) (h2 : s ≤ 2) :
    atempoStages s = [s] := by
  rw [atempoStages, atempoHalve_of_le s h2]
  dsimp only
  rw [atempoDouble_of_ge s h1]
  simp

/-- Above the band only the halving loop runs. -/
lemma atempoStages_of_gt (s : ℚ) (h : 2 < s) :
    atempoStages s = (atempoHalve s).1 ++ [(atempoHalve s).2] := by
  have h1 : 1 < (atempoHalve s).2 := atempoHalve_snd_gt_one s h
  rw [atempoStages, atempoDouble_of_ge _ (by linarith)]
  simp

/-- Below the band only the doubling loop runs. -/
lemma atempoStages_of_lt (s : ℚ) (h : s < 1/2) :
    atempoStages s = (atempoDouble s).1 ++ [(atempoDouble s).2] := by
  rw [atempoStages, atempoHalve_of_le s (by linarith)]
  simp

/-- The chain always ends in the final accumulator, so it is never empty. -/
lemma atempoStages_ne_nil (s : ℚ) : atempoStages s ≠ [] := by
  rw [atempoStages]
  simp

/-- Exact preservation: the product of the chain is the input. -/
lemma atempoStages_prod (s : ℚ) : (atempoStages s).prod = s := by
  rw [atempoStages, List.prod_append, List.prod_append, List.prod_singleton,
    mul_assoc, atempoDouble_prod, atempoHalve_prod]

/-- Every stage of the chain lies in the band [1/2, 2]. -/
lemma atempoStages_mem_band (s : ℚ) (hs : 0 < s) :
    ∀ m ∈ atempoStages s, 1/2 ≤ m ∧ m ≤ 2 := by
  by_cases h2 : 2 < s
  · rw [atempoStages_of_gt s h2]
    intro m hm
    rcases List.mem_append.mp hm with hm | hm
    · rw [atempoHalve_mem s m hm]
      norm_num
    · rw [List.mem_singleton.mp hm]
      exact ⟨by linarith [atempoHalve_snd_gt_one s h2], atempoHalve_snd_le s⟩
  · by_cases hl : s < 1/2
    · rw [atempoStages_of_lt s hl]
      intro m hm
      rcases List.mem_append.mp hm with hm | hm
      · rw [atempoDouble_mem s m hm]
        norm_num
      · rw [List.mem_singleton.mp hm]
        refine ⟨atempoDouble_snd_ge s hs, ?_⟩
        linarith [atempoDouble_snd_lt_one s (by linarith : s < 1)]
    · rw [atempoStages_of_band s (not_lt.mp hl) (not_lt.mp h2)]
      intro m hm
      rw [List.mem_singleton.mp hm]
      exact ⟨not_lt.mp hl, not_lt.mp h2⟩

/-- Above the band the distance is measured by `s` itself. -/
lemma max_inv_of_gt (s : ℚ) (h : 2 < s) : max s s⁻¹ = s := by
  have hs : 0 < s := by linarith
  have h1 : s⁻¹ * s = 1 := inv_mul_cancel₀ (ne_of_gt hs)
  have h2 : s⁻¹ ≤ s := by nlinarith
  exact max_eq_left h2

/-- Below the band the distance is measured by `s⁻¹`. -/
lemma max_inv_of_lt (s : ℚ) (h0 : 0 < s) (h : s < 1/2) : max s s⁻¹ = s⁻¹ := by
  have h1 : s⁻¹ * s = 1 := inv_mul_cancel₀ (ne_of_gt h0)
  have h2 : s ≤ s⁻¹ := by nlinarith
  exact max_eq_right h2

/-- The chain is long enough to cover the input:
`max s s⁻¹ ≤ 2 ^ length`. -/
lemma atempoStages_pow_ge (s : ℚ) (hs : 0 < s) :
    max s s⁻¹ ≤ 2 ^ (atempoStages s).length := by
  by_cases h2 : 2 < s
  · rw [max_inv_of_gt s h2, atempoStages_of_gt s h2]
    simp only [List.length_append, List.length_singleton]
    exact atempoHalve_le_pow s
  · by_cases hl : s < 1/2
    · rw [max_inv_of_lt s hs hl, atempoStages_of_lt s hl]
      simp only [List.length_append, List.length_singleton]
      have h3 := atempoDouble_pow_ge s hs
      rw [inv_eq_one_div, div_le_iff₀ hs]
      linarith
    · rw [atempoStages_of_band s (not_lt.mp hl) (not_lt.mp h2)]
      simp only [List.length_singleton, pow_one]
      apply max_le (not_lt.mp h2)
      have h3 : (1 : ℚ)/2 ≤ s := not_lt.mp hl
      rw [inv_eq_one_div, div_le_iff₀ hs]
      nlinarith

/-- The chain is no longer than needed: unless it is the single final
stage, `2 ^ length < 2 * max s s⁻¹`. -/
lemma atempoStages_pow_lt (s : ℚ) (hs : 0 < s) :
    (atempoStages s).length = 1 ∨
      (2 : ℚ) ^ (atempoStages s).length < 2 * max s s⁻¹ := by
  by_cases h2 : 2 < s
  · right
    rw [max_inv_of_gt s h2, atempoStages_of_gt s h2]
    simp only [List.length_append, List.length_singleton]
    rw [pow_succ]
    linarith [atempoHalve_pow_lt s h2]
  · by_cases hl : s < 1/2
    · right
      rw [max_inv_of_lt s hs hl, atempoStages_of_lt s hl]
      simp only [List.length_append, List.length_singleton]
      have h3 := atempoDouble_pow_lt s hs hl
      have h4 : (2 : ℚ) ^ (atempoDouble s).1.length < s⁻¹ := by
        rw [inv_eq_one_div, lt_div_iff₀ hs]
        linarith
      rw [pow_succ]
      linarith
    · left
      rw [atempoStages_of_band s (not_lt.mp hl) (not_lt.mp h2)]
      rfl

/-- Chain length is monotone in the distance `max s s⁻¹` from the band. -/
lemma atempoStages_length_mono (s t : ℚ) (hs : 0 < s) (ht : 0 < t)
    (hmax : max s s⁻¹ ≤ max t t⁻¹) :
    (atempoStages s).length ≤ (atempoStages t).length := by
  have hpos : 0 < (atempoStages t).length :=
    List.length_pos.mpr (atempoStages_ne_nil t)
  rcases atempoStages_pow_lt s hs with h1 | h1
  · omega
  · have h2 : max t t⁻¹ ≤ 2 ^ (atempoStages t).length := atempoStages_pow_ge t ht
    have h3 : (2 : ℚ) ^ (atempoStages s).length < 2 ^ ((atempoStages t).length + 1) := by
      rw [pow_succ]
      linarith
    have h4 : (atempoStages s).length < (atempoStages t).length + 1 :=
      (pow_lt_pow_iff_right₀ (by norm_num : (1 : ℚ) < 2)).mp h3
    omega

/-! ### The string the source actually returns

`atempo_chain` builds string tokens, not numbers: the loops append the
literals `"atempo=2.0"` and `"atempo=0.5"` and the last line appends
`f"atempo={sf}"`.  We model Python's float rendering by an integer
part, a dot, and the decimal digits of the fractional part (Python
floats are dyadic and `repr` prints a shortest round-trip decimal; the
model truncates at 17 digits, enough for every literal this file
evaluates). -/

/-- Decimal digits of a fractional part `q ∈ [0, 1)`, at most `n` of
them, stopping when the remainder hits zero. -/
def decDigits : ℕ → ℚ → String
  | 0, _ => ""
  | n + 1, q =>
    if q = 0 then "" else toString ⌊q * 10⌋ ++ decDigits n (q * 10 - ⌊q * 10⌋)

/-- Modelled rendering of the number in Python's `f"atempo={sf}"`. -/
def floatRepr (q : ℚ) : String :=
  toString ⌊q⌋ ++ "." ++
    (if decDigits 17 (q - ⌊q⌋) = "" then "0" else decDigits 17 (q - ⌊q⌋))

lemma decDigits_zero (n : ℕ) : decDigits n 0 = "" := by
  cases n <;> simp [decDigits]

lemma floatRepr_two : floatRepr 2 = "2.0" := by
  rw [floatRepr]
  norm_num
  rw [decDigits_zero]
  decide

lemma floatRepr_half : floatRepr (1/2) = "0.5" := by
  rw [floatRepr]
  norm_num
  rw [show decDigits 17 (1/2) = decDigits (16 + 1) (1/2) from rfl]
  rw [show decDigits (16 + 1) (1/2)
      = (if (1/2 : ℚ) = 0 then ""
         else toString ⌊(1/2 : ℚ) * 10⌋
          ++ decDigits 16 ((1/2 : ℚ) * 10 - ⌊(1/2 : ℚ) * 10⌋)) from rfl]
  norm_num
  rw [decDigits_zero]
  decide

/-- The token the final source line emits for a stage value `m`. -/
def atempoToken (m : ℚ) : String := "atempo=" ++ floatRepr m

lemma atempoToken_two : atempoToken 2 = "atempo=2.0" := by
  rw [atempoToken, floatRepr_two]
  decide

lemma atempoToken_half : atempoToken (1/2) = "atempo=0.5" := by
  rw [atempoToken, floatRepr_half]
  decide

/-- String-level halving loop, exactly as the source appends tokens:
`tempos.append("atempo=2.0")`. -/
def atempoChainHalve (sf : ℚ) : List String × ℚ :=
  if h : 2 < sf then
    ("atempo=2.0" :: (atempoChainHalve (sf / 2)).1, (atempoChainHalve (sf / 2)).2)
  else
    ([], sf)
termination_by (⌈sf⌉).toNat
decreasing_by
  all_goals exact ceil_half_lt sf h

/-- String-level doubling loop, exactly as the source appends tokens:
`tempos.append("atempo=0.5")`; the guard carries `0 < sf` as in
`atempoDouble`. -/
def atempoChainDouble (sf : ℚ) : List String × ℚ :=
  if h : 0 < sf ∧ sf < 1/2 then
    ("atempo=0.5" :: (atempoChainDouble (sf * 2)).1, (atempoChainDouble (sf * 2)).2)
  else
    ([], sf)
termination_by (⌈1 / sf⌉).toNat
decreasing_by
  all_goals exact ceil_inv_double_lt sf h

/-- The value `atempo_chain` returns: the comma-join
(`",".join(tempos)`) of the loop tokens followed by the final
`f"atempo={sf}"` token. -/
def atempo_chain (sf : ℚ) : String :=
  String.intercalate ","
    ((atempoChainHalve sf).1
      ++ (atempoChainDouble (atempoChainHalve sf).2).1
      ++ [atempoToken (atempoChainDouble (atempoChainHalve sf).2).2])

lemma atempoChainHalve_of_gt (sf : ℚ) (h : 2 < sf) :
    atempoChainHalve sf
      = ("atempo=2.0" :: (atempoChainHalve (sf / 2)).1, (atempoChainHalve (sf / 2)).2) := by
  rw [atempoChainHalve]
  simp [h]

lemma atempoChainHalve_of_le (sf : ℚ) (h : sf ≤ 2) :
    atempoChainHalve sf = ([], sf) := by
  rw [atempoChainHalve]
  simp [not_lt.mpr h]

lemma atempoChainDouble_of_lt (sf : ℚ) (h0 : 0 < sf) (h : sf < 1/2) :
    atempoChainDouble sf
      = ("atempo=0.5" :: (atempoChainDouble (sf * 2)).1, (atempoChainDouble (sf * 2)).2) := by
  rw [atempoChainDouble]
  rw [dif_pos ⟨h0, h⟩]

lemma atempoChainDouble_of_not (sf : ℚ) (h : ¬(0 < sf ∧ sf < 1/2)) :
    atempoChainDouble sf = ([], sf) := by
  rw [atempoChainDouble]
  rw [dif_neg h]

/-- The string loop is the numeric loop with each stage rendered as its
token. -/
lemma atempoChainHalve_map (sf : ℚ) :
    atempoChainHalve sf
      = ((atempoHalve sf).1.map atempoToken, (atempoHalve sf).2) := by
  induction sf using atempoChainHalve.induct with
  | case1 x h ih =>
    rw [atempoChainHalve_of_gt x h, atempoHalve_of_gt x h, ih]
    simp [atempoToken_two]
  | case2 x h =>
    rw [atempoChainHalve_of_le x (not_lt.mp h), atempoHalve_of_le x (not_lt.mp h)]
    simp

/-- Likewise for the doubling loop. -/
lemma atempoChainDouble_map (sf : ℚ) :
    atempoChainDouble sf
      = ((atempoDouble sf).1.map atempoToken, (atempoDouble sf).2) := by
  induction sf using atempoChainDouble.induct with
  | case1 x h ih =>
    rw [atempoChainDouble_of_lt x h.1 h.2, atempoDouble_of_lt x h.1 h.2, ih]
    have htok : atempoToken 2⁻¹ = "atempo=0.5" := by
      rw [show (2⁻¹ : ℚ) = 1/2 by norm_num]
      exact atempoToken_half
    simp [htok]
  | case2 x h =>
    rw [atempoChainDouble_of_not x h, atempoDouble_of_not x h]
    simp

/-- `atempo_chain` is the comma-join of the rendered Tempo Chain. -/
lemma atempo_chain_eq_join (sf : ℚ) :
    atempo_chain sf = String.intercalate "," ((atempoStages sf).map atempoToken) := by
  rw [atempo_chain, atempoStages, atempoChainHalve_map, atempoChainDouble_map]
  simp

/-! ### Claims -/

/-- C1: for every speed factor `s > 0`, the product of all stage
multipliers in the chain returned by `atempo_chain(s)` equals `s`
within a tolerance of 1e-6. -/
theorem chain_product_within_tolerance (s : ℚ) (_hs : 0 < s) :
    |(atempoStages s).prod - s| ≤ 1/1000000 := by
  rw [atempoStages_prod]
  simp

theorem chain_product_within_tolerance_witness :
    |(atempoStages 3).prod - 3| ≤ 1/1000000 :=
  chain_product_within_tolerance 3 (by norm_num)

/-- C2: for every speed factor `s > 0`, every stage multiplier in the
chain returned by `atempo_chain(s)` lies in the closed interval
[0.5, 2.0] (in particular the final emitted remainder does). -/
theorem chain_stages_in_band (s : ℚ) (hs : 0 < s) :
    ∀ m ∈ atempoStages s, 1/2 ≤ m ∧ m ≤ 2 :=
  atempoStages_mem_band s hs

theorem chain_stages_in_band_witness :
    1/2 ≤ (5/4 : ℚ) ∧ (5/4 : ℚ) ≤ 2 :=
  chain_stages_in_band 5 (by norm_num) (5/4)
    (by norm_num [atempoStages, atempoHalve_of_gt, atempoHalve_of_le,
      atempoDouble_of_ge])

/-- C3: for every speed factor `s` with `0.5 ≤ s ≤ 2.0`,
`atempo_chain(s)` returns a chain with exactly one element, and that
element equals `s`. -/
theorem band_identity_chain (s : ℚ) (h1 : 1/2 ≤ s) (h2 : s ≤ 2) :
    atempoStages s = [s] :=
  atempoStages_of_band s h1 h2

theorem band_identity_chain_witness : atempoStages (3/2) = [3/2] :=
  band_identity_chain (3/2) (by norm_num) (by norm_num)

/-- C4: `atempo_chain` produces exactly the chains of the spec's
concrete scenario table: 1.0 ↦ [1.0], 2.0 ↦ [2.0], 0.5 ↦ [0.5],
4.0 ↦ [2.0, 2.0], 8.0 ↦ [2.0, 2.0, 2.0], 0.25 ↦ [0.5, 0.5],
3.0 ↦ [2.0, 1.5]. -/
theorem spec_scenario_table :
    atempoStages 1 = [1] ∧ atempoStages 2 = [2] ∧
    atempoStages (1/2) = [1/2] ∧ atempoStages 4 = [2, 2] ∧
    atempoStages 8 = [2, 2, 2] ∧ atempoStages (1/4) = [1/2, 1/2] ∧
    atempoStages 3 = [2, 3/2] := by
  refine ⟨?_, ?_, ?_, ?_, ?_, ?_, ?_⟩ <;>
    norm_num [atempoStages, atempoHalve_of_gt, atempoHalve_of_le,
      atempoDouble_of_lt, atempoDouble_of_ge]

/-- C5: for every speed factor `s > 0`, `atempo_chain(s)` terminates
with a finite chain whose length grows logarithmically with `s`: the
chain is non-empty, `max s s⁻¹ ≤ 2 ^ length` (so the loops stop after
logarithmically many iterations), and unless the chain is the single
final stage, `2 ^ length < 2 * max s s⁻¹`. -/
theorem chain_terminates_log_length (s : ℚ) (hs : 0 < s) :
    1 ≤ (atempoStages s).length ∧
    max s s⁻¹ ≤ 2 ^ (atempoStages s).length ∧
    ((atempoStages s).length = 1 ∨
      (2 : ℚ) ^ (atempoStages s).length < 2 * max s s⁻¹) :=
  ⟨List.length_pos.mpr (atempoStages_ne_nil s),
    atempoStages_pow_ge s hs, atempoStages_pow_lt s hs⟩

theorem chain_terminates_log_length_witness :
    1 ≤ (atempoStages 8).length ∧
    max 8 (8 : ℚ)⁻¹ ≤ 2 ^ (atempoStages 8).length ∧
    ((atempoStages 8).length = 1 ∨
      (2 : ℚ) ^ (atempoStages 8).length < 2 * max 8 (8 : ℚ)⁻¹) :=
  chain_terminates_log_length 8 (by norm_num)

/-- C6 counterexample: the chain length is NOT strictly increasing as
`s` moves away from [0.5, 2.0]: the inputs 3.0 and 4.0 both lie above
the band, 4.0 farther than 3.0, yet their chains have equal length. -/
theorem length_not_strictly_increasing :
    2 < (3 : ℚ) ∧ (3 : ℚ) < 4 ∧
      (atempoStages 4).length = (atempoStages 3).length := by
  refine ⟨by norm_num, by norm_num, ?_⟩
  norm_num [atempoStages, atempoHalve_of_gt, atempoHalve_of_le,
    atempoDouble_of_ge]

/-- C6 amended: the chain length is finite, non-decreasing (not
strictly increasing) in the distance `max s s⁻¹` from the band, and
pinned to the logarithm of that distance:
`max s s⁻¹ ≤ 2 ^ length`, and `2 ^ length < 2 * max s s⁻¹` unless the
chain is a single stage — which is the spec's
`ceil(log2(max(s, 1/s) / 2)) + 1` up to its edge cases. -/
theorem chain_length_monotone (s t : ℚ) (hs : 0 < s) (ht : 0 < t)
    (hmax : max s s⁻¹ ≤ max t t⁻¹) :
    (atempoStages s).length ≤ (atempoStages t).length ∧
    max s s⁻¹ ≤ 2 ^ (atempoStages s).length ∧
    ((atempoStages s).length = 1 ∨
      (2 : ℚ) ^ (atempoStages s).length < 2 * max s s⁻¹) :=
  ⟨atempoStages_length_mono s t hs ht hmax,
    atempoStages_pow_ge s hs, atempoStages_pow_lt s hs⟩

theorem chain_length_monotone_witness :
    (atempoStages 3).length ≤ (atempoStages 4).length ∧
    max 3 (3 : ℚ)⁻¹ ≤ 2 ^ (atempoStages 3).length ∧
    ((atempoStages 3).length = 1 ∨
      (2 : ℚ) ^ (atempoStages 3).length < 2 * max 3 (3 : ℚ)⁻¹) :=
  chain_length_monotone 3 4 (by norm_num) (by norm_num)
    (by rw [max_inv_of_gt 3 (by norm_num), max_inv_of_gt 4 (by norm_num)]
        norm_num)

/-- C7: for every speed factor `s > 0`, `atempo_chain(s)` returns the
comma-joined string of the chain's stages, each formatted as an
`atempo=<value>` token, in the order the stages were emitted. -/
theorem chain_string_format (s : ℚ) (_hs : 0 < s) :
    atempo_chain s
      = String.intercalate ","
          ((atempoStages s).map fun m => "atempo=" ++ floatRepr m) := by
  rw [atempo_chain_eq_join]
  rfl

theorem chain_string_format_witness :
    atempo_chain 3
      = String.intercalate ","
          ((atempoStages 3).map fun m => "atempo=" ++ floatRepr m) :=
  chain_string_format 3 (by norm_num)

/-- C8: `atempo_chain` is deterministic and (being a pure function of
its argument in this embedding, mutating nothing) side-effect-free: two
calls on equal inputs return equal strings and equal chains. -/
theorem chain_deterministic (s t : ℚ) (_hs : 0 < s) (hst : s = t) :
    atempo_chain s = atempo_chain t ∧ atempoStages s = atempoStages t := by
  subst hst
  exact ⟨rfl, rfl⟩

theorem chain_deterministic_witness :
    atempo_chain 3 = atempo_chain 3 ∧ atempoStages 3 = atempoStages 3 :=
  chain_deterministic 3 3 (by norm_num) rfl

/-- C9: for every speed factor `s > 0`, the chain is non-empty, never
contains both a 2.0 stage and a 0.5 stage, and every element except the
last equals 2.0 when `s > 2.0`, respectively 0.5 when `s < 0.5`. -/
theorem chain_shape (s : ℚ) (hs : 0 < s) :
    atempoStages s ≠ [] ∧
    ¬((2 : ℚ) ∈ atempoStages s ∧ (1/2 : ℚ) ∈ atempoStages s) ∧
    (2 < s → ∀ x ∈ (atempoStages s).dropLast, x = 2) ∧
    (s < 1/2 → ∀ x ∈ (atempoStages s).dropLast, x = 1/2) := by
  refine ⟨atempoStages_ne_nil s, ?_, ?_, ?_⟩
  · rintro ⟨h2, hh⟩
    by_cases hgt : 2 < s
    · have h1 := atempoHalve_snd_gt_one s hgt
      rw [atempoStages_of_gt s hgt] at hh
      rcases List.mem_append.mp hh with hm | hm
      · have := atempoHalve_mem s _ hm
        norm_num at this
      · rw [← List.mem_singleton.mp hm] at h1
        norm_num at h1
    · by_cases hlt : s < 1/2
      · have h1 := atempoDouble_snd_lt_one s (by linarith : s < 1)
        rw [atempoStages_of_lt s hlt] at h2
        rcases List.mem_append.mp h2 with hm | hm
        · have := atempoDouble_mem s _ hm
          norm_num at this
        · rw [← List.mem_singleton.mp hm] at h1
          norm_num at h1
      · rw [atempoStages_of_band s (not_lt.mp hlt) (not_lt.mp hgt)] at h2 hh
        have e1 : (2 : ℚ) = s := List.mem_singleton.mp h2
        have e2 : (1/2 : ℚ) = s := List.mem_singleton.mp hh
        rw [← e1] at e2
        norm_num at e2
  · intro hgt x hx
    rw [atempoStages_of_gt s hgt, List.dropLast_concat] at hx
    exact atempoHalve_mem s x hx
  · intro hlt x hx
    rw [atempoStages_of_lt s hlt, List.dropLast_concat] at hx
    exact atempoDouble_mem s x hx

theorem chain_shape_witness :
    atempoStages 8 ≠ [] ∧
      ¬((2 : ℚ) ∈ atempoStages 8 ∧ (1/2 : ℚ) ∈ atempoStages 8) :=
  ⟨(chain_shape 8 (by norm_num)).1, (chain_shape 8 (by norm_num)).2.1⟩

/-- C10: over exact rational arithmetic the product of the chain of
`atempo_chain(s)` equals `s` exactly, with zero error: every loop step
scales the accumulator by exactly 2 and the exact remainder is emitted
as the last stage, so the spec's 1e-6 tolerance is never needed. -/
theorem chain_product_exact (s : ℚ) (_hs : 0 < s) :
    (atempoStages s).prod = s :=
  atempoStages_prod s

theorem chain_product_exact_witness : (atempoStages 5).prod = 5 :=
  chain_product_exact 5 (by norm_num)
